import Mathlib

/-!
Verification development for the statsmodels example notebooks
(`markov_autoregression.ipynb`, `copula.ipynb`).

The notebooks are glue code invoking the statsmodels library; the numerical
procedures they exercise (Hamilton filter, Kim smoother, time-varying
transition matrices, expected regime durations, copula sampling and
parameter fitting) are implemented in library code that is not part of the
example sources.  Those procedures are therefore modelled here from the
specification's language-agnostic description (spec sections 3, 4.1-4.4, 6,
7, 8) and from the mathematical formulas stated in the notebooks' own
markdown cells, and the claimed properties are proved about the models.

Probability recursions are embedded over `ℚ` (exact arithmetic, executable);
the logistic-link transition probabilities, expected-duration series and
copula distribution functions, which involve `exp`, `log` and infinite
series, are embedded over `ℝ`.
-/

namespace MarkovSwitching

/-- Modelled from the spec: the predict step of the Hamilton filter
(spec 4.2 step 1, missing from the example sources).  Combines the filtered
regime distribution from the previous step with the transition matrix
`P` (row `i` = distribution over destination regimes when leaving regime `i`)
to get the predicted regime distribution. -/
def predictStep {k : ℕ} (P : Fin k → Fin k → ℚ) (prev : Fin k → ℚ) : Fin k → ℚ :=
  fun j => ∑ i, prev i * P i j

/-- Modelled from the spec: the update step of the Hamilton filter
(spec 4.2 step 2, missing from the example sources).  Weights the predicted
distribution by the regime-conditional observation likelihood `lik`, then
renormalizes to sum to 1. -/
def updateStep {k : ℕ} (lik : Fin k → ℚ) (pred : Fin k → ℚ) : Fin k → ℚ :=
  fun i => pred i * lik i / ∑ j, pred j * lik j

/-- Modelled from the spec: the Hamilton filter (spec 4.2, missing from the
example sources).  `init` is the regime distribution before the first
observation and `lik t` the regime-conditional observation likelihoods at
step `t`; at each step the filter predicts from the previous filtered
distribution and then updates with the current likelihood. -/
def filtered_marginal_probabilities {k : ℕ} (P : Fin k → Fin k → ℚ)
    (init : Fin k → ℚ) (lik : ℕ → Fin k → ℚ) : ℕ → Fin k → ℚ
  | 0 => updateStep (lik 0) (predictStep P init)
  | t + 1 =>
      updateStep (lik (t + 1))
        (predictStep P (filtered_marginal_probabilities P init lik t))

/-- Modelled from the spec: the one-step-ahead predicted regime distribution
used inside the Hamilton filter at step `t` (before the update at `t`). -/
def predicted_marginal_probabilities {k : ℕ} (P : Fin k → Fin k → ℚ)
    (init : Fin k → ℚ) (lik : ℕ → Fin k → ℚ) : ℕ → Fin k → ℚ
  | 0 => predictStep P init
  | t + 1 => predictStep P (filtered_marginal_probabilities P init lik t)

/-- Modelled from the spec: one backward combination step of the Kim smoother
(spec 4.3, missing from the example sources): combines the filtered
distribution at `t` with the smoothed distribution at `t+1` and the
transition matrix to produce the smoothed distribution at `t`. -/
def kimCombine {k : ℕ} (P : Fin k → Fin k → ℚ) (filt next : Fin k → ℚ) :
    Fin k → ℚ :=
  fun i => filt i * ∑ j, P i j * next j / predictStep P filt j

/-- Auxiliary downward recursion for the Kim smoother: `kimAux P filt g t`
is the smoothed distribution at time `t` when the final time is `t + g`. -/
def kimAux {k : ℕ} (P : Fin k → Fin k → ℚ) (filt : ℕ → Fin k → ℚ) :
    ℕ → ℕ → Fin k → ℚ
  | 0, t => filt t
  | g + 1, t => kimCombine P (filt t) (kimAux P filt g (t + 1))

/-- Modelled from the spec: the Kim smoother (spec 4.3, missing from the
example sources).  Backward recursion from the final filtered distribution at
time `T`: `smoothed T = filtered T`, and for `t < T` the smoothed
distribution combines `filtered t`, `smoothed (t+1)` and the transition
matrix. -/
def smoothed_marginal_probabilities {k : ℕ} (P : Fin k → Fin k → ℚ)
    (filt : ℕ → Fin k → ℚ) (T t : ℕ) : Fin k → ℚ :=
  kimAux P filt (T - t) t

end MarkovSwitching

/-- Modelled from the spec: the error conditions of section 7 (missing from
the example sources): invalid parameter domain, optimizer non-convergence,
and dimension mismatch between inputs. -/
inductive FitError
  | InvalidParameter
  | NonConvergence
  | DimensionMismatch
deriving DecidableEq

namespace MarkovSwitching

/-- Modelled from the spec: the per-entry logistic link used for time-varying
transition probabilities (spec section 3, missing from the example sources):
`logisticLink z = exp z / (1 + exp z)`. -/
noncomputable def logisticLink (z : ℝ) : ℝ := Real.exp z / (1 + Real.exp z)

/-- The linear combination of a regressor row with a coefficient vector. -/
noncomputable def dotProduct (x b : List ℝ) : ℝ :=
  (List.zipWith (fun a c => a * c) x b).sum

/-- Coordinatewise negation of a coefficient vector. -/
noncomputable def negVec (b : List ℝ) : List ℝ := b.map (fun a => -a)

/-- Modelled from the spec: the time-varying transition matrix for `k + 1`
regimes (spec section 3 and notebook markdown, missing from the example
sources).  Row `i` is the distribution over destination regimes when leaving
regime `i`; `exog_tvtp t` is the lagged regressor row `x_{t-1}` supplied by
the caller; the coefficient vectors `beta i j` for the first `k` destination
regimes are the estimated parameters, each giving its entry through the
logistic link, and the final entry is the complement so that the row sums
to one. -/
noncomputable def regime_transition_matrix {k : ℕ}
    (beta : Fin (k + 1) → Fin k → List ℝ) (exog_tvtp : ℕ → List ℝ) (t : ℕ) :
    Fin (k + 1) → Fin (k + 1) → ℝ :=
  fun i => Fin.lastCases
    (1 - ∑ j : Fin k, logisticLink (dotProduct (exog_tvtp t) (beta i j)))
    (fun j => logisticLink (dotProduct (exog_tvtp t) (beta i j)))

/-- Modelled from the spec: the constant transition matrix for `k + 1`
regimes built from the `k` free transition probabilities of each row, the
final entry of a row being the complement so that the row sums to one. -/
noncomputable def const_transition_matrix {k : ℕ}
    (p : Fin (k + 1) → Fin k → ℝ) : Fin (k + 1) → Fin (k + 1) → ℝ :=
  fun i => Fin.lastCases (1 - ∑ j : Fin k, p i j) (fun j => p i j)

/-- Modelled from the spec: the reported expected duration of regime `i`
(spec section 6, missing from the example sources): `1 / (1 - p_ii)` where
`p_ii` is the regime's self-transition probability. -/
noncomputable def expected_durations {k : ℕ} (P : Fin k → Fin k → ℝ)
    (i : Fin k) : ℝ :=
  1 / (1 - P i i)

/-- Modelled from the spec: the time-varying analogue of the expected
duration, applying the same formula per time step to the time-varying
self-transition probability. -/
noncomputable def expected_durations_tvtp {k : ℕ}
    (Pt : ℕ → Fin k → Fin k → ℝ) (t : ℕ) (i : Fin k) : ℝ :=
  1 / (1 - Pt t i i)

/-- Probability that a regime with self-transition probability `p` persists
for exactly `d + 1` consecutive periods before transitioning away. -/
noncomputable def durationProb (p : ℝ) (d : ℕ) : ℝ := p ^ d * (1 - p)

/-- The expected number of consecutive periods a regime with self-transition
probability `p` persists before transitioning away (spec glossary). -/
noncomputable def regimeDurationExpectation (p : ℝ) : ℝ :=
  tsum (fun d : ℕ => ((d : ℝ) + 1) * durationProb p d)

/-- Modelled from the spec: the regime-conditional observation likelihood of
an order-`p` autoregression at filter step `n` is a function `f` of the
window of `p + 1` observations ending at original index `p + n`
(the observation at `p + n` together with its `p` lags). -/
def arLikelihood {k : ℕ} (f : List ℚ → Fin k → ℚ) (y : List ℚ) (p n : ℕ) :
    Fin k → ℚ :=
  f ((y.drop n).take (p + 1))

/-- Modelled from the spec: the filtered marginal probability sequence
returned by a Markov-switching autoregression of order `p` fit to the series
`y`.  The first `p` observations are conditioned on as lags, so the filter
runs over original time indices `p, …, T - 1` and the returned sequence has
length `T - p`. -/
def MarkovAutoregression_filtered {k : ℕ} (P : Fin k → Fin k → ℚ)
    (init : Fin k → ℚ) (f : List ℚ → Fin k → ℚ) (y : List ℚ) (p : ℕ) :
    List (Fin k → ℚ) :=
  (List.range (y.length - p)).map
    (filtered_marginal_probabilities P init (arLikelihood f y p))

/-- Modelled from the spec: the smoothed marginal probability sequence
returned by a Markov-switching autoregression of order `p`, of the same
length `T - p` as the filtered sequence. -/
def MarkovAutoregression_smoothed {k : ℕ} (P : Fin k → Fin k → ℚ)
    (init : Fin k → ℚ) (f : List ℚ → Fin k → ℚ) (y : List ℚ) (p : ℕ) :
    List (Fin k → ℚ) :=
  (List.range (y.length - p)).map
    (smoothed_marginal_probabilities P
      (filtered_marginal_probabilities P init (arLikelihood f y p))
      (y.length - p - 1))

/-- Modelled from the spec: pick from a list of optimization results the one
with the best (highest) log-likelihood. -/
def bestBy {α : Type} (llf : α → ℚ) : List α → Option α
  | [] => none
  | c :: cs => some (cs.foldl (fun b x => if llf b < llf x then x else b) c)

/-- Modelled from the spec: the random-search fit (spec 4.4, missing from the
example sources).  Runs the optimizer `opt` from `search_reps` randomly
perturbed starting points (`perturb r start0` is the `r`-th perturbation of
the starting parameter vector) and returns the result with the best
(highest) log-likelihood `llf` among all restarts. -/
def fit_with_search {α : Type} (opt : α → α) (llf : α → ℚ)
    (perturb : ℕ → α → α) (start0 : α) (search_reps : ℕ) : Option α :=
  bestBy llf ((List.range search_reps).map (fun r => opt (perturb r start0)))

/-- Modelled from the spec: fitting a Markov-switching model with optional
time-varying-transition regressors fails with `DimensionMismatch` when the
regressor array's row count is inconsistent with the length of the time
series, and otherwise runs the filter (spec section 7, missing from the
example sources). -/
def markov_fit {k : ℕ} (P : Fin k → Fin k → ℚ) (init : Fin k → ℚ)
    (f : List ℚ → Fin k → ℚ) (y : List ℚ) (p : ℕ)
    (exog_tvtp : Option (List (List ℚ))) :
    Except FitError (List (Fin k → ℚ)) :=
  match exog_tvtp with
  | none => Except.ok (MarkovAutoregression_filtered P init f y p)
  | some X =>
      if X.length = y.length then
        Except.ok (MarkovAutoregression_filtered P init f y p)
      else Except.error FitError.DimensionMismatch

end MarkovSwitching

namespace CopulaModel

/-- Modelled from the spec: a parametric copula for sampling (spec 4.1,
missing from the example sources): a dimension `d` and a generator producing,
for each draw index, a row of `d` correlated uniforms. -/
structure Copula where
  dim : ℕ
  uniforms : ℕ → List ℝ

/-- Modelled from the spec: a marginal distribution, carrying its cumulative
distribution function and its inverse (the quantile function). -/
structure Marginal where
  cdf : ℝ → ℝ
  ppf : ℝ → ℝ

/-- Modelled from the spec: `Sample(copula, marginals, n)` (spec 4.1, missing
from the example sources).  Generates `n` draws of correlated uniforms from
the copula's generator and maps each coordinate through the corresponding
marginal's inverse CDF; fails with `DimensionMismatch` when the copula
dimension differs from the number of marginals. -/
def Sample (cop : Copula) (marginals : List Marginal) (n : ℕ) :
    Except FitError (List (List ℝ)) :=
  if cop.dim = marginals.length then
    Except.ok ((List.range n).map (fun r =>
      List.zipWith (fun u m => m.ppf u) (cop.uniforms r) marginals))
  else Except.error FitError.DimensionMismatch

/-- Modelled from the spec: the cumulative distribution function of the
Gumbel copula with dependence parameter `theta ≥ 1` (bivariate case):
`C(u, v) = exp (-(((-log u) ^ θ + (-log v) ^ θ) ^ (1/θ)))`. -/
noncomputable def gumbelCopulaCDF (theta u v : ℝ) : ℝ :=
  Real.exp (-(((-Real.log u) ^ theta + (-Real.log v) ^ theta) ^ (1 / theta)))

/-- The joint cumulative distribution function of a copula `C` composed with
marginal CDFs `F1`, `F2` (Sklar composition): the distribution of the joint
samples produced by transforming the copula's correlated uniforms through the
marginals' inverse CDFs. -/
def copulaJointCDF (C : ℝ → ℝ → ℝ) (F1 F2 : ℝ → ℝ) (x y : ℝ) : ℝ :=
  C (F1 x) (F2 y)

/-- The joint cumulative distribution function obtained by sampling each
marginal independently. -/
noncomputable def independentJointCDF (F1 F2 : ℝ → ℝ) (x y : ℝ) : ℝ :=
  F1 x * F2 y

/-- Modelled from the spec: the population Kendall tau of the Gumbel copula
with parameter `theta`: `tau = 1 - 1/theta`. -/
noncomputable def gumbelTau (theta : ℝ) : ℝ := 1 - 1 / theta

/-- Modelled from the spec: `EstimateTheta` / `fit_theta` (spec 4.1, missing
from the example sources): numerical inversion of the concordance measure
(Kendall's tau) computed on the data; reports non-convergence when the
measure leaves the invertible domain. -/
noncomputable def fit_theta (tauHat : ℝ) : Except FitError ℝ :=
  if tauHat < 1 then Except.ok (1 / (1 - tauHat))
  else Except.error FitError.NonConvergence

end CopulaModel

namespace MarkovSwitching

/-- The Kim smoother at the final time step returns the filtered distribution
unchanged. -/
theorem kimAux_zero {k : ℕ} (P : Fin k → Fin k → ℚ) (filt : ℕ → Fin k → ℚ)
    (t : ℕ) : kimAux P filt 0 t = filt t := rfl

/-- C1: the smoothed regime probability vector at the final time step `T`
equals the filtered regime probability vector at that step (the Kim backward
recursion's terminal condition), and for every `t < T` the smoothed
distribution at `t` is obtained by combining the filtered distribution at
`t`, the smoothed distribution at `t+1` and the transition matrix. -/
theorem C1_kim_smoother_terminal_and_recursion {k : ℕ}
    (P : Fin k → Fin k → ℚ) (filt : ℕ → Fin k → ℚ) (T : ℕ) :
    smoothed_marginal_probabilities P filt T T = filt T ∧
    ∀ t, t < T →
      smoothed_marginal_probabilities P filt T t =
        kimCombine P (filt t)
          (smoothed_marginal_probabilities P filt T (t + 1)) := by
  constructor
  · show kimAux P filt (T - T) T = filt T
    rw [Nat.sub_self]
    rfl
  · intro t ht
    show kimAux P filt (T - t) t = _
    have h : T - t = (T - (t + 1)) + 1 := by omega
    rw [h]
    rfl

/-- Witness for C1 at a concrete two-regime instance with horizon `T = 2`. -/
theorem C1_kim_smoother_witness :
    (smoothed_marginal_probabilities (fun _ _ : Fin 2 => (1 : ℚ)/2)
        (fun _ _ => (1 : ℚ)/2) 2 2 = (fun _ _ => (1 : ℚ)/2) 2) ∧
    (0 < 2 ∧
      smoothed_marginal_probabilities (fun _ _ : Fin 2 => (1 : ℚ)/2)
        (fun _ _ => (1 : ℚ)/2) 2 0 =
      kimCombine (fun _ _ : Fin 2 => (1 : ℚ)/2) ((fun _ _ => (1 : ℚ)/2) 0)
        (smoothed_marginal_probabilities (fun _ _ : Fin 2 => (1 : ℚ)/2)
          (fun _ _ => (1 : ℚ)/2) 2 1)) :=
  ⟨(C1_kim_smoother_terminal_and_recursion _ _ 2).1,
   by decide,
   (C1_kim_smoother_terminal_and_recursion _ _ 2).2 0 (by decide)⟩

/-- The renormalization in the update step makes the output sum to 1 whenever
the normalizing constant is nonzero. -/
theorem sum_updateStep {k : ℕ} (lik pred : Fin k → ℚ)
    (h : (∑ j, pred j * lik j) ≠ 0) : ∑ i, updateStep lik pred i = 1 := by
  unfold updateStep
  rw [← Finset.sum_div]
  exact div_self h

/-- The filtered distribution at `t` is the update of the predicted
distribution at `t`. -/
theorem filtered_eq_update {k : ℕ} (P : Fin k → Fin k → ℚ)
    (init : Fin k → ℚ) (lik : ℕ → Fin k → ℚ) (t : ℕ) :
    filtered_marginal_probabilities P init lik t =
      updateStep (lik t) (predicted_marginal_probabilities P init lik t) := by
  cases t <;> rfl

/-- The filtered distribution sums to 1 whenever the update step's
normalizing constant at that step is nonzero. -/
theorem sum_filtered {k : ℕ} (P : Fin k → Fin k → ℚ)
    (init : Fin k → ℚ) (lik : ℕ → Fin k → ℚ) (t : ℕ)
    (h : (∑ j, predicted_marginal_probabilities P init lik t j * lik t j) ≠ 0) :
    ∑ i, filtered_marginal_probabilities P init lik t i = 1 := by
  rw [filtered_eq_update]
  exact sum_updateStep _ _ h

/-- One backward Kim combination step preserves the sum-to-one property,
provided the predicted distribution has no zero entries. -/
theorem sum_kimCombine {k : ℕ} (P : Fin k → Fin k → ℚ) (filt next : Fin k → ℚ)
    (hpred : ∀ j, predictStep P filt j ≠ 0) (hnext : ∑ j, next j = 1) :
    ∑ i, kimCombine P filt next i = 1 := by
  unfold kimCombine
  have hline : ∀ j ∈ Finset.univ,
      (∑ i, filt i * (P i j * next j / predictStep P filt j)) = next j := by
    intro j _
    have h1 : ∀ i ∈ Finset.univ, filt i * (P i j * next j / predictStep P filt j)
        = filt i * P i j * (next j / predictStep P filt j) := by
      intro i _
      ring
    rw [Finset.sum_congr rfl h1, ← Finset.sum_mul]
    have h2 : (∑ i, filt i * P i j) = predictStep P filt j := rfl
    rw [h2, ← mul_div_assoc]
    exact mul_div_cancel_left₀ _ (hpred j)
  calc (∑ i, filt i * ∑ j, P i j * next j / predictStep P filt j)
      = ∑ i, ∑ j, filt i * (P i j * next j / predictStep P filt j) := by
        exact Finset.sum_congr rfl (fun i _ => Finset.mul_sum _ _ _)
    _ = ∑ j, ∑ i, filt i * (P i j * next j / predictStep P filt j) :=
        Finset.sum_comm
    _ = ∑ j, next j := Finset.sum_congr rfl hline
    _ = 1 := hnext

/-- The Kim backward recursion preserves the sum-to-one property down from
the final time step. -/
theorem sum_kimAux {k : ℕ} (P : Fin k → Fin k → ℚ)
    (init : Fin k → ℚ) (lik : ℕ → Fin k → ℚ) (T : ℕ)
    (hfilt : ∀ t, t ≤ T →
      ∑ i, filtered_marginal_probabilities P init lik t i = 1)
    (hpred : ∀ t, t ≤ T → ∀ j,
      predicted_marginal_probabilities P init lik t j ≠ 0) :
    ∀ g t, g + t ≤ T →
      ∑ i, kimAux P (filtered_marginal_probabilities P init lik) g t i = 1 := by
  intro g
  induction g with
  | zero =>
      intro t ht
      exact hfilt t (by omega)
  | succ g ih =>
      intro t ht
      show ∑ i, kimCombine P (filtered_marginal_probabilities P init lik t)
        (kimAux P (filtered_marginal_probabilities P init lik) g (t + 1)) i = 1
      apply sum_kimCombine
      · intro j
        have h2 : predictStep P (filtered_marginal_probabilities P init lik t) j
            = predicted_marginal_probabilities P init lik (t + 1) j := rfl
        rw [h2]
        exact hpred (t + 1) (by omega) j
      · exact ih (t + 1) (by omega)

/-- C2: for every step `t` up to the horizon, the filtered and the smoothed
regime probability vectors each sum to 1 over the `k` regimes, and the
Hamilton filter's update step renormalizes any likelihood-weighted predicted
distribution with nonzero normalizing constant to sum to 1. -/
theorem C2_probability_vectors_sum_to_one {k : ℕ} (P : Fin k → Fin k → ℚ)
    (init : Fin k → ℚ) (lik : ℕ → Fin k → ℚ) (T : ℕ)
    (hden : ∀ t, t ≤ T →
      (∑ j, predicted_marginal_probabilities P init lik t j * lik t j) ≠ 0)
    (hpred : ∀ t, t ≤ T → ∀ j,
      predicted_marginal_probabilities P init lik t j ≠ 0) :
    (∀ t, t ≤ T →
      ∑ i, filtered_marginal_probabilities P init lik t i = 1) ∧
    (∀ t, t ≤ T →
      ∑ i, smoothed_marginal_probabilities P
        (filtered_marginal_probabilities P init lik) T t i = 1) ∧
    (∀ L pre : Fin k → ℚ, (∑ j, pre j * L j) ≠ 0 →
      ∑ i, updateStep L pre i = 1) := by
  have hfilt : ∀ t, t ≤ T →
      ∑ i, filtered_marginal_probabilities P init lik t i = 1 :=
    fun t ht => sum_filtered P init lik t (hden t ht)
  refine ⟨hfilt, ?_, fun L pre h => sum_updateStep L pre h⟩
  intro t ht
  show ∑ i, kimAux P (filtered_marginal_probabilities P init lik) (T - t) t i = 1
  exact sum_kimAux P init lik T hfilt hpred (T - t) t (by omega)

/-- Witness for C2 at a concrete two-regime instance with horizon `T = 1`. -/
theorem C2_sum_to_one_witness :
    (∑ i, filtered_marginal_probabilities (fun _ _ : Fin 2 => (1 : ℚ)/2)
        (fun _ => (1 : ℚ)/2) (fun _ _ => (1 : ℚ)) 1 i = 1) ∧
    (∑ i, smoothed_marginal_probabilities (fun _ _ : Fin 2 => (1 : ℚ)/2)
        (filtered_marginal_probabilities (fun _ _ : Fin 2 => (1 : ℚ)/2)
          (fun _ => (1 : ℚ)/2) (fun _ _ => (1 : ℚ))) 1 0 i = 1) ∧
    (∑ i, updateStep (fun _ : Fin 2 => (1 : ℚ)) (fun _ : Fin 2 => (1 : ℚ)/2) i
      = 1) := by
  have h := C2_probability_vectors_sum_to_one (fun _ _ : Fin 2 => (1 : ℚ)/2)
    (fun _ => (1 : ℚ)/2) (fun _ _ => (1 : ℚ)) 1 ?_ ?_
  · exact ⟨h.1 1 le_rfl, h.2.1 0 (by norm_num),
      h.2.2 _ _ (by norm_num [Fin.sum_univ_two])⟩
  · intro t ht
    interval_cases t <;>
      norm_num [predicted_marginal_probabilities, filtered_marginal_probabilities,
        predictStep, updateStep, Fin.sum_univ_two]
  · intro t ht j
    interval_cases t <;> fin_cases j <;>
      norm_num [predicted_marginal_probabilities, filtered_marginal_probabilities,
        predictStep, updateStep, Fin.sum_univ_two]

end MarkovSwitching

namespace MarkovSwitching

/-- The logistic link satisfies `logisticLink (-z) = 1 - logisticLink z`. -/
theorem logisticLink_neg (z : ℝ) : logisticLink (-z) = 1 - logisticLink z := by
  unfold logisticLink
  have h1 : (0:ℝ) < Real.exp z := Real.exp_pos z
  have h2 : (1:ℝ) + Real.exp z ≠ 0 := by positivity
  have h3 : (1:ℝ) + Real.exp (-z) ≠ 0 := by positivity
  rw [Real.exp_neg] at h3 ⊢
  field_simp
  ring

/-- The linear combination with the negated coefficient vector is the
negation of the linear combination. -/
theorem dotProduct_negVec (x b : List ℝ) :
    dotProduct x (negVec b) = -dotProduct x b := by
  induction x generalizing b with
  | nil => simp [dotProduct, negVec]
  | cons a x ih =>
      cases b with
      | nil => simp [dotProduct, negVec]
      | cons c b =>
          have h := ih b
          simp only [dotProduct, negVec, List.map_cons, List.zipWith_cons_cons,
            List.sum_cons] at h ⊢
          rw [h]
          ring

/-- C3: every row of a transition matrix produced by the procedure sums to 1
at every time step, both for the time-varying matrix whose entries come from
exogenous regressors via the per-entry logistic link and for the constant
matrix. -/
theorem C3_transition_rows_sum_to_one {k : ℕ}
    (beta : Fin (k + 1) → Fin k → List ℝ) (exog_tvtp : ℕ → List ℝ)
    (p : Fin (k + 1) → Fin k → ℝ) :
    (∀ t (i : Fin (k + 1)),
      ∑ j, regime_transition_matrix beta exog_tvtp t i j = 1) ∧
    (∀ i : Fin (k + 1), ∑ j, const_transition_matrix p i j = 1) := by
  constructor
  · intro t i
    unfold regime_transition_matrix
    rw [Fin.sum_univ_castSucc]
    rw [Fin.lastCases_last]
    have h : ∀ j : Fin k,
        (Fin.lastCases
          (1 - ∑ j2 : Fin k,
            logisticLink (dotProduct (exog_tvtp t) (beta i j2)))
          (fun j2 => logisticLink (dotProduct (exog_tvtp t) (beta i j2)))
          (Fin.castSucc j) : ℝ)
          = logisticLink (dotProduct (exog_tvtp t) (beta i j)) :=
      fun j => Fin.lastCases_castSucc j
    rw [Finset.sum_congr rfl (fun j _ => h j)]
    ring
  · intro i
    unfold const_transition_matrix
    rw [Fin.sum_univ_castSucc]
    rw [Fin.lastCases_last]
    have h : ∀ j : Fin k,
        (Fin.lastCases (1 - ∑ j2 : Fin k, p i j2) (fun j2 => p i j2)
          (Fin.castSucc j) : ℝ) = p i j :=
      fun j => Fin.lastCases_castSucc j
    rw [Finset.sum_congr rfl (fun j _ => h j)]
    ring

/-- C4: in the time-varying transition matrix, each estimated entry at step
`t` is the logistic link `exp (x'β) / (1 + exp (x'β))` of the linear
combination of the lagged regressor row with that entry's coefficient vector
(the coefficients, not the probabilities, being the parameters of the
construction), and in the two-regime case of the notebook the remaining
entry of each row also has this logistic form, with the negated coefficient
vector. -/
theorem C4_tvtp_entries_logistic :
    (∀ (k : ℕ) (beta : Fin (k + 1) → Fin k → List ℝ)
        (exog_tvtp : ℕ → List ℝ) (t : ℕ) (i : Fin (k + 1)) (j : Fin k),
      regime_transition_matrix beta exog_tvtp t i (Fin.castSucc j) =
        Real.exp (dotProduct (exog_tvtp t) (beta i j)) /
          (1 + Real.exp (dotProduct (exog_tvtp t) (beta i j)))) ∧
    (∀ (beta : Fin 2 → Fin 1 → List ℝ) (exog_tvtp : ℕ → List ℝ) (t : ℕ)
        (i : Fin 2),
      regime_transition_matrix beta exog_tvtp t i (Fin.last 1) =
        Real.exp (dotProduct (exog_tvtp t) (negVec (beta i 0))) /
          (1 + Real.exp (dotProduct (exog_tvtp t) (negVec (beta i 0))))) := by
  constructor
  · intro k beta exog_tvtp t i j
    unfold regime_transition_matrix
    rw [show (Fin.lastCases
        (1 - ∑ j2 : Fin k,
          logisticLink (dotProduct (exog_tvtp t) (beta i j2)))
        (fun j2 => logisticLink (dotProduct (exog_tvtp t) (beta i j2)))
        (Fin.castSucc j) : ℝ)
        = logisticLink (dotProduct (exog_tvtp t) (beta i j))
      from Fin.lastCases_castSucc j]
    rfl
  · intro beta exog_tvtp t i
    unfold regime_transition_matrix
    rw [Fin.lastCases_last, dotProduct_negVec, Fin.sum_univ_one,
      ← logisticLink_neg]
    rfl

end MarkovSwitching

namespace MarkovSwitching

/-- The expected number of consecutive periods a regime with self-transition
probability `0 ≤ p < 1` persists equals `1 / (1 - p)`. -/
theorem regimeDurationExpectation_eq (p : ℝ) (h0 : 0 ≤ p) (h1 : p < 1) :
    regimeDurationExpectation p = 1 / (1 - p) := by
  have hnorm : ‖p‖ < 1 := by
    rw [Real.norm_eq_abs, abs_of_nonneg h0]
    exact h1
  have hs1 : Summable (fun d : ℕ => (d : ℝ) * p ^ d) := by
    have h := summable_pow_mul_geometric_of_norm_lt_one 1 hnorm
    simpa using h
  have hs2 : Summable (fun d : ℕ => p ^ d) :=
    summable_geometric_of_lt_one h0 h1
  have hne : (1 : ℝ) - p ≠ 0 := by
    intro h
    rw [sub_eq_zero] at h
    exact absurd h.symm (ne_of_lt h1)
  unfold regimeDurationExpectation durationProb
  have hterm : ∀ d : ℕ,
      ((d : ℝ) + 1) * (p ^ d * (1 - p)) = ((d : ℝ) * p ^ d + p ^ d) * (1 - p) :=
    fun d => by ring
  rw [tsum_congr hterm, tsum_mul_right, tsum_add hs1 hs2,
    tsum_coe_mul_geometric_of_norm_lt_one hnorm,
    tsum_geometric_of_lt_one h0 h1]
  field_simp
  left
  ring

/-- C5: the reported expected duration of regime `i` equals
`1 / (1 - p_ii)` with `p_ii` the self-transition probability, and this value
is the expected number of consecutive periods the regime persists before
transitioning away; with time-varying transition probabilities the same
formula is applied per time step to the time-varying self-transition
probability. -/
theorem C5_expected_durations_formula {k : ℕ} (P : Fin k → Fin k → ℝ)
    (Pt : ℕ → Fin k → Fin k → ℝ) (i : Fin k) (t : ℕ)
    (h0 : 0 ≤ P i i) (h1 : P i i < 1)
    (h0t : 0 ≤ Pt t i i) (h1t : Pt t i i < 1) :
    (expected_durations P i = 1 / (1 - P i i) ∧
      expected_durations P i = regimeDurationExpectation (P i i)) ∧
    (expected_durations_tvtp Pt t i = 1 / (1 - Pt t i i) ∧
      expected_durations_tvtp Pt t i = regimeDurationExpectation (Pt t i i)) :=
  ⟨⟨rfl, (regimeDurationExpectation_eq _ h0 h1).symm⟩,
   ⟨rfl, (regimeDurationExpectation_eq _ h0t h1t).symm⟩⟩

/-- Witness for C5 at concrete self-transition probabilities 1/2 and 1/3. -/
theorem C5_expected_durations_witness :
    ((expected_durations (fun _ _ : Fin 1 => (1 : ℝ)/2) 0 =
        1 / (1 - (fun _ _ : Fin 1 => (1 : ℝ)/2) 0 0) ∧
      expected_durations (fun _ _ : Fin 1 => (1 : ℝ)/2) 0 =
        regimeDurationExpectation ((fun _ _ : Fin 1 => (1 : ℝ)/2) 0 0)) ∧
     (expected_durations_tvtp (fun _ : ℕ => fun _ _ : Fin 1 => (1 : ℝ)/3) 0 0 =
        1 / (1 - (fun _ : ℕ => fun _ _ : Fin 1 => (1 : ℝ)/3) 0 0 0) ∧
      expected_durations_tvtp (fun _ : ℕ => fun _ _ : Fin 1 => (1 : ℝ)/3) 0 0 =
        regimeDurationExpectation
          ((fun _ : ℕ => fun _ _ : Fin 1 => (1 : ℝ)/3) 0 0 0))) :=
  C5_expected_durations_formula _ _ 0 0 (by norm_num) (by norm_num)
    (by norm_num) (by norm_num)

end MarkovSwitching

namespace CopulaModel

/-- C6: `Sample` fails with `DimensionMismatch` exactly when the copula's
dimension differs from the number of marginals supplied, the
Markov-switching fit fails with `DimensionMismatch` exactly when the
time-varying-transition regressor array's row count is inconsistent with the
length of the time series, and in all other valid cases both operations
succeed without this error. -/
theorem C6_dimension_mismatch_errors :
    (∀ (cop : Copula) (marginals : List Marginal) (n : ℕ),
      Sample cop marginals n = Except.error FitError.DimensionMismatch ↔
        cop.dim ≠ marginals.length) ∧
    (∀ (cop : Copula) (marginals : List Marginal) (n : ℕ),
      cop.dim = marginals.length →
        ∃ s, Sample cop marginals n = Except.ok s) ∧
    (∀ (k : ℕ) (P : Fin k → Fin k → ℚ) (init : Fin k → ℚ)
        (f : List ℚ → Fin k → ℚ) (y : List ℚ) (p : ℕ) (X : List (List ℚ)),
      MarkovSwitching.markov_fit P init f y p (some X) =
          Except.error FitError.DimensionMismatch ↔ X.length ≠ y.length) ∧
    (∀ (k : ℕ) (P : Fin k → Fin k → ℚ) (init : Fin k → ℚ)
        (f : List ℚ → Fin k → ℚ) (y : List ℚ) (p : ℕ)
        (exog : Option (List (List ℚ))),
      (∀ X, exog = some X → X.length = y.length) →
        ∃ s, MarkovSwitching.markov_fit P init f y p exog = Except.ok s) := by
  refine ⟨?_, ?_, ?_, ?_⟩
  · intro cop marginals n
    unfold Sample
    split_ifs with h
    · simp [h]
    · simp [h]
  · intro cop marginals n h
    unfold Sample
    rw [if_pos h]
    exact ⟨_, rfl⟩
  · intro k P init f y p X
    show (if X.length = y.length then _ else _) = _ ↔ _
    split_ifs with h
    · simp [h]
    · simp [h]
  · intro k P init f y p exog hdim
    cases exog with
    | none => exact ⟨_, rfl⟩
    | some X =>
        have hX := hdim X rfl
        show ∃ s, (if X.length = y.length then _ else _) = Except.ok s
        rw [if_pos hX]
        exact ⟨_, rfl⟩

/-- Witness for C6: a 2-dimensional copula with two marginals samples
successfully, and a Markov fit whose regressor rows match the series length
succeeds. -/
theorem C6_dimension_mismatch_witness :
    (∃ s, Sample ⟨2, fun _ => [(1 : ℝ)/2, 1/2]⟩
      [⟨fun u => u, fun u => u⟩, ⟨fun u => u, fun u => u⟩] 1 = Except.ok s) ∧
    (∃ s, MarkovSwitching.markov_fit (fun _ _ : Fin 1 => (1 : ℚ))
      (fun _ => 1) (fun _ _ => 1) [] 0 (some []) = Except.ok s) :=
  ⟨C6_dimension_mismatch_errors.2.1 _ _ 1 rfl,
   C6_dimension_mismatch_errors.2.2.2 1 _ _ _ [] 0 (some [])
     (fun X hX => by cases hX; rfl)⟩

end CopulaModel

namespace MarkovSwitching

/-- The running best of a left fold with the argmax step is an element of the
candidate list (the initial element included). -/
theorem foldl_best_mem {α : Type} (llf : α → ℚ) (cs : List α) :
    ∀ c : α, cs.foldl (fun b x => if llf b < llf x then x else b) c ∈ c :: cs := by
  induction cs with
  | nil => intro c; simp
  | cons x xs ih =>
      intro c
      rw [List.foldl_cons]
      have h := ih (if llf c < llf x then x else c)
      rcases List.mem_cons.mp h with h1 | h1
      · rw [h1]
        split_ifs
        · exact List.mem_cons_of_mem _ (List.mem_cons_self _ _)
        · exact List.mem_cons_self _ _
      · exact List.mem_cons_of_mem _ (List.mem_cons_of_mem _ h1)

/-- The running best of a left fold with the argmax step has log-likelihood
at least that of every candidate (the initial element included). -/
theorem foldl_best_le {α : Type} (llf : α → ℚ) (cs : List α) :
    ∀ c : α, ∀ a ∈ c :: cs,
      llf a ≤ llf (cs.foldl (fun b x => if llf b < llf x then x else b) c) := by
  induction cs with
  | nil =>
      intro c a ha
      rcases List.mem_cons.mp ha with h | h
      · rw [h]
        exact le_rfl
      · simp at h
  | cons x xs ih =>
      intro c a ha
      rw [List.foldl_cons]
      rcases List.mem_cons.mp ha with h | h
      · have h1 : llf c ≤ llf (if llf c < llf x then x else c) := by
          split_ifs with hlt
          · exact le_of_lt hlt
          · exact le_refl _
        have h2 := ih (if llf c < llf x then x else c) _
          (List.mem_cons_self _ _)
        rw [h]
        exact le_trans h1 h2
      · rcases List.mem_cons.mp h with h3 | h3
        · have h1 : llf a ≤ llf (if llf c < llf x then x else c) := by
            rw [h3]
            split_ifs with hlt
            · exact le_refl _
            · exact le_of_not_lt hlt
          exact le_trans h1 (ih (if llf c < llf x then x else c) _
            (List.mem_cons_self _ _))
        · exact ih (if llf c < llf x then x else c) a
            (List.mem_cons_of_mem _ h3)

/-- C7: invoked with a positive fixed count of restarts, the random-search
fit runs the optimizer once from each of the `search_reps` randomly perturbed
starting points and returns the result with the best (highest)
log-likelihood among all restarts. -/
theorem C7_random_search_returns_best {α : Type} (opt : α → α) (llf : α → ℚ)
    (perturb : ℕ → α → α) (start0 : α) (search_reps : ℕ)
    (h : 0 < search_reps) :
    ∃ best,
      fit_with_search opt llf perturb start0 search_reps = some best ∧
      best ∈ (List.range search_reps).map (fun r => opt (perturb r start0)) ∧
      (∀ r, r < search_reps → llf (opt (perturb r start0)) ≤ llf best) ∧
      ((List.range search_reps).map (fun r => opt (perturb r start0))).length
        = search_reps := by
  obtain ⟨c, cs, hL⟩ : ∃ c cs,
      (List.range search_reps).map (fun r => opt (perturb r start0))
        = c :: cs := by
    cases hcase : (List.range search_reps).map (fun r => opt (perturb r start0)) with
    | nil =>
        exfalso
        have hlen := congrArg List.length hcase
        simp at hlen
        omega
    | cons c cs => exact ⟨c, cs, rfl⟩
  refine ⟨cs.foldl (fun b x => if llf b < llf x then x else b) c, ?_, ?_, ?_, ?_⟩
  · show bestBy llf
      ((List.range search_reps).map (fun r => opt (perturb r start0))) = _
    rw [hL]
    rfl
  · rw [hL]
    exact foldl_best_mem llf cs c
  · intro r hr
    have hmem : opt (perturb r start0)
        ∈ (List.range search_reps).map (fun r => opt (perturb r start0)) :=
      List.mem_map_of_mem _ (List.mem_range.mpr hr)
    rw [hL] at hmem
    exact foldl_best_le llf cs c _ hmem
  · rw [List.length_map, List.length_range]

/-- Witness for C7 with three restarts over rational parameters, identity
optimizer and log-likelihood, and the `r`-th perturbation equal to `r`. -/
theorem C7_random_search_witness :
    ∃ best,
      fit_with_search (fun q : ℚ => q) (fun q => q) (fun r _ => (r : ℚ)) 0 3
          = some best ∧
      best ∈ (List.range 3).map (fun r : ℕ => (r : ℚ)) ∧
      (∀ r : ℕ, r < 3 → (r : ℚ) ≤ best) ∧
      ((List.range 3).map (fun r : ℕ => (r : ℚ))).length = 3 :=
  C7_random_search_returns_best (fun q : ℚ => q) (fun q => q)
    (fun r _ => (r : ℚ)) 0 3 (by norm_num)

end MarkovSwitching

namespace CopulaModel

/-- C8: with the dependence parameter at its independence boundary
(`theta = 1` for the Gumbel family), the joint distribution obtained by
composing the copula with any marginals coincides, at every evaluation
point where the marginal CDFs are positive, with the joint distribution of
independently sampled marginals. -/
theorem C8_independence_at_theta_one (F1 F2 : ℝ → ℝ) (x y : ℝ)
    (h1 : 0 < F1 x) (h2 : 0 < F2 y) :
    copulaJointCDF (gumbelCopulaCDF 1) F1 F2 x y
      = independentJointCDF F1 F2 x y := by
  unfold copulaJointCDF gumbelCopulaCDF independentJointCDF
  rw [show ((1 : ℝ)/1) = 1 by norm_num]
  rw [Real.rpow_one, Real.rpow_one, Real.rpow_one]
  rw [show -(-Real.log (F1 x) + -Real.log (F2 y))
      = Real.log (F1 x) + Real.log (F2 y) by ring]
  rw [Real.exp_add, Real.exp_log h1, Real.exp_log h2]

/-- Witness for C8 at constant marginal CDF values 1/2 and 1/3. -/
theorem C8_independence_witness :
    copulaJointCDF (gumbelCopulaCDF 1) (fun _ => (1 : ℝ)/2)
        (fun _ => (1 : ℝ)/3) 0 0
      = independentJointCDF (fun _ => (1 : ℝ)/2) (fun _ => (1 : ℝ)/3) 0 0 :=
  C8_independence_at_theta_one (fun _ => (1 : ℝ)/2) (fun _ => (1 : ℝ)/3) 0 0
    (by norm_num) (by norm_num)

/-- C9: estimating `theta` by inverting the concordance measure recovers the
true parameter exactly at the population value of Kendall's tau; when the
measured tau deviates from the population value by at most `1/(2 theta)` the
estimate exists and its error is bounded by `2 theta ^ 2` times the tau
deviation (so the estimation error shrinks with the sampling error of tau,
which decreases as the sample size grows); and for every input the estimator
either converges to a value or reports non-convergence. -/
theorem C9_fit_theta_round_trip (theta : ℝ) (htheta : 1 ≤ theta) :
    fit_theta (gumbelTau theta) = Except.ok theta ∧
    (∀ tauHat : ℝ, |tauHat - gumbelTau theta| ≤ 1 / (2 * theta) →
      ∃ est, fit_theta tauHat = Except.ok est ∧
        |est - theta| ≤ 2 * theta ^ 2 * |tauHat - gumbelTau theta|) ∧
    (∀ tauHat : ℝ, (∃ est, fit_theta tauHat = Except.ok est) ∨
      fit_theta tauHat = Except.error FitError.NonConvergence) := by
  have hpos : (0 : ℝ) < theta := lt_of_lt_of_le one_pos htheta
  refine ⟨?_, ?_, ?_⟩
  · have hlt : gumbelTau theta < 1 := by
      unfold gumbelTau
      have : 0 < 1 / theta := by positivity
      linarith
    unfold fit_theta
    rw [if_pos hlt]
    unfold gumbelTau
    rw [show (1 : ℝ) - (1 - 1 / theta) = 1 / theta by ring, one_div_one_div]
  · intro tauHat hdev
    have hgap : 1 / (2 * theta) ≤ 1 - tauHat := by
      have hle := (abs_le.mp hdev).2
      unfold gumbelTau at hle
      have hkey : 1 / theta - 1 / (2 * theta) = 1 / (2 * theta) := by
        field_simp
        ring
      linarith [hkey]
    have hgap0 : (0 : ℝ) < 1 - tauHat :=
      lt_of_lt_of_le (by positivity) hgap
    have hlt : tauHat < 1 := by linarith
    refine ⟨1 / (1 - tauHat), ?_, ?_⟩
    · unfold fit_theta
      rw [if_pos hlt]
    · have hkey : 1 / (1 - tauHat) - theta
          = theta * (tauHat - gumbelTau theta) / (1 - tauHat) := by
        unfold gumbelTau
        field_simp
        ring
      rw [hkey, abs_div, abs_mul, abs_of_pos hpos, abs_of_pos hgap0]
      rw [div_le_iff₀ hgap0]
      have habs : 0 ≤ |tauHat - gumbelTau theta| := abs_nonneg _
      have h2t : (0 : ℝ) < 2 * theta := by positivity
      have hone : 1 ≤ (1 - tauHat) * (2 * theta) := by
        rw [← div_le_iff₀ h2t]
        exact hgap
      nlinarith [mul_le_mul_of_nonneg_left hone
        (mul_nonneg hpos.le habs)]
  · intro tauHat
    by_cases h : tauHat < 1
    · left
      refine ⟨1 / (1 - tauHat), ?_⟩
      unfold fit_theta
      rw [if_pos h]
    · right
      unfold fit_theta
      rw [if_neg h]

/-- Witness for C9 at `theta = 2` (population tau 1/2, measured tau 3/5). -/
theorem C9_fit_theta_witness :
    fit_theta (gumbelTau 2) = Except.ok 2 ∧
    (∃ est, fit_theta ((3 : ℝ)/5) = Except.ok est ∧
      |est - 2| ≤ 2 * 2 ^ 2 * |(3 : ℝ)/5 - gumbelTau 2|) ∧
    ((∃ est, fit_theta (5 : ℝ) = Except.ok est) ∨
      fit_theta (5 : ℝ) = Except.error FitError.NonConvergence) := by
  have h := C9_fit_theta_round_trip 2 (by norm_num)
  refine ⟨h.1, h.2.1 ((3 : ℝ)/5) ?_, h.2.2 5⟩
  rw [show gumbelTau 2 = (1 : ℝ)/2 by unfold gumbelTau; norm_num]
  rw [abs_le]
  constructor <;> norm_num

end CopulaModel

namespace MarkovSwitching

/-- C10: for a Markov-switching autoregression of order `p` fit to a series
of length `T`, the returned filtered and smoothed marginal probability
sequences have length `T - p` rather than `T`; the entry at position `n` is
the filter output at step `n`, whose conditional likelihood window is the
block of `p + 1` observations at original indices `n, …, n + p` — the
observation at original index `p + n` together with its `p` lags — so the
returned sequences begin at original time index `p`, the first `p`
observations being conditioned on as lags. -/
theorem C10_ar_order_conditioning {k : ℕ} (P : Fin k → Fin k → ℚ)
    (init : Fin k → ℚ) (f : List ℚ → Fin k → ℚ) (y : List ℚ) (p : ℕ) :
    (MarkovAutoregression_filtered P init f y p).length = y.length - p ∧
    (MarkovAutoregression_smoothed P init f y p).length = y.length - p ∧
    (∀ n, n < y.length - p →
      (MarkovAutoregression_filtered P init f y p)[n]? =
        some (filtered_marginal_probabilities P init (arLikelihood f y p) n)) ∧
    (∀ n, n < y.length - p →
      ((y.drop n).take (p + 1)).length = p + 1 ∧
      ∀ m, m ≤ p → ((y.drop n).take (p + 1))[m]? = y[n + m]?) := by
  refine ⟨?_, ?_, ?_, ?_⟩
  · unfold MarkovAutoregression_filtered
    rw [List.length_map, List.length_range]
  · unfold MarkovAutoregression_smoothed
    rw [List.length_map, List.length_range]
  · intro n hn
    unfold MarkovAutoregression_filtered
    rw [List.getElem?_map, List.getElem?_range hn]
    rfl
  · intro n hn
    constructor
    · rw [List.length_take, List.length_drop]
      omega
    · intro m hm
      rw [List.getElem?_take, if_pos (by omega), List.getElem?_drop]

/-- Witness for C10: an order-1 autoregression on a series of length 4
returns sequences of length 3; its step-0 entry is the filter output for the
window covering original indices 0 and 1. -/
theorem C10_ar_order_witness :
    ((MarkovAutoregression_filtered (fun _ _ : Fin 1 => (1 : ℚ))
        (fun _ => 1) (fun _ _ => 1) [0, 1, 2, 3] 1).length
      = [(0 : ℚ), 1, 2, 3].length - 1) ∧
    ((MarkovAutoregression_smoothed (fun _ _ : Fin 1 => (1 : ℚ))
        (fun _ => 1) (fun _ _ => 1) [0, 1, 2, 3] 1).length
      = [(0 : ℚ), 1, 2, 3].length - 1) ∧
    ((MarkovAutoregression_filtered (fun _ _ : Fin 1 => (1 : ℚ))
        (fun _ => 1) (fun _ _ => 1) [0, 1, 2, 3] 1)[0]? =
      some (filtered_marginal_probabilities (fun _ _ : Fin 1 => (1 : ℚ))
        (fun _ => 1) (arLikelihood (fun _ _ => 1) [0, 1, 2, 3] 1) 0)) ∧
    ((([(0 : ℚ), 1, 2, 3].drop 0).take 2).length = 2 ∧
      (([(0 : ℚ), 1, 2, 3].drop 0).take 2)[1]? = [(0 : ℚ), 1, 2, 3][0 + 1]?) := by
  have h := C10_ar_order_conditioning (fun _ _ : Fin 1 => (1 : ℚ))
    (fun _ => 1) (fun _ _ => 1) [0, 1, 2, 3] 1
  exact ⟨h.1, h.2.1, h.2.2.1 0 (by norm_num), (h.2.2.2 0 (by norm_num)).1,
    (h.2.2.2 0 (by norm_num)).2 1 le_rfl⟩

end MarkovSwitching
